import Mathlib

/-!
Verification of the queue-simulation core (request_queue.py, request.py,
server.py, client.py) against its natural-language specification.

The shallow embedding keeps the source structure: the priority queue is a
Python list of `(priority, request)` tuples kept sorted with
`bisect.bisect_right` plus `list.insert`; requests are identified by a
numeric id standing for Python object identity.  Animation and painting code
is outside the modelled core; the notifications it would receive
(`move_backward`, `move_forward`) are returned explicitly as lists.
-/

namespace QueueSim

/-- A queue entry mirrors the Python tuple `(request.priority, request)`;
the second component is the request's identity. -/
abbrev Entry := Nat × Nat

/-- The part of a `Request` object relevant to queue admission:
its priority (1 = high, 2 = normal) and its identity. -/
structure Request where
  priority : Nat
  rid : Nat
deriving DecidableEq, Repr, Inhabited

/-- State of a `RequestQueue` object: the `queue` list of entries, the
`can_bypass` flag, the fixed `capacity`, and the optional `paired_server`
reference (an index into the topology's server list). -/
structure QueueState where
  entries : List Entry
  canBypass : Bool
  capacity : Nat
  pairedServer : Option Nat := none
deriving DecidableEq, Repr, Inhabited

/-- A freshly constructed `RequestQueue(x, y, capacity, server)`:
empty `queue`, `can_bypass = True`. -/
def initQueue (capacity : Nat) (server : Option Nat := none) : QueueState :=
  { entries := [], canBypass := true, capacity := capacity, pairedServer := server }

/-- Python comparison `(p1, r1) < (p2, r2)` on queue entries.  Since
`Request.__lt__` and `Request.__gt__` both always return `False` and request
equality is object identity, the request component never decides the tuple
comparison: it reduces to comparing the priorities. -/
def entryLt (e1 e2 : Entry) : Bool := e1.1 < e2.1

/-- The loop of CPython's `bisect.bisect_right(a, x, lo, hi)`; the fuel
argument bounds the number of iterations (each iteration shrinks `hi - lo`,
so `a.length` iterations always suffice for the initial call). -/
def bisectRightAux (a : List Entry) (x : Entry) : Nat → Nat → Nat → Nat
  | 0, lo, _ => lo
  | fuel + 1, lo, hi =>
    if lo < hi then
      let mid := (lo + hi) / 2
      if entryLt x (a.getD mid (0, 0)) then bisectRightAux a x fuel lo mid
      else bisectRightAux a x fuel (mid + 1) hi
    else lo

/-- Python `bisect.bisect_right(a, x)`: insertion point to the right of any
entries comparing equal to `x`. -/
def bisectRight (a : List Entry) (x : Entry) : Nat :=
  bisectRightAux a x a.length 0 a.length

/-- `RequestQueue.accept_request`.  If there is room, insert the entry at the
position computed by `bisect_right` (Python `queue.insert(index, entry)` is
`take index ++ entry :: drop index`), tell every request now behind the new
entry to move backward one slot, and return the 1-based position; if the
queue is full, return `capacity + 1` and change nothing.  The result is
`(returned position, new queue state, requests notified to move backward)`. -/
def accept_request (s : QueueState) (r : Request) : Nat × QueueState × List Entry :=
  if s.entries.length < s.capacity then
    let entry : Entry := (r.priority, r.rid)
    let index := bisectRight s.entries entry
    let newq := s.entries.take index ++ entry :: s.entries.drop index
    (index + 1, { s with entries := newq }, newq.drop (index + 1))
  else
    (s.capacity + 1, s, [])

/-- Result of `RequestQueue.send_request`: the new queue state, the entry
popped and handed to the paired server (its `move_to_server` target), and
the remaining entries notified to move forward one slot. -/
structure SendResult where
  state : QueueState
  dispatched : Option Entry
  shifted : List Entry
deriving DecidableEq, Repr

/-- `Request.move_to_server(server)` as seen from a queue that is mutually
paired with its server (`view.py` builds every row with
`queue.paired_server = server` and `server.paired_queue = queue`): the
request now in flight clears `server.paired_queue.can_bypass`, i.e. the
queue's own flag. -/
def moveToServerOfPair (s : QueueState) : QueueState :=
  { s with canBypass := false }

/-- `RequestQueue.send_request` for a queue mutually paired with its server.
On an empty queue it sets `can_bypass = True` and returns; otherwise it pops
the front entry, calls `move_to_server(paired_server)` on it (which clears
the queue's `can_bypass` through the mutual pairing), and notifies the
remaining entries to move forward. -/
def sendRequest (s : QueueState) : SendResult :=
  match s.entries with
  | [] => ⟨{ s with canBypass := true }, none, []⟩
  | e :: rest =>
    let s1 := { s with entries := rest }
    ⟨moveToServerOfPair s1, some e, rest⟩

/-- Folding `accept_request` over a sequence of requests: the queue state
after a sequence of `accept` calls. -/
def accepts (s : QueueState) (rs : List Request) : QueueState :=
  rs.foldl (fun s r => (accept_request s r).2.1) s

/-- Index of the first occurrence of a value in a list (the position of a
request in an admission-order trace). -/
def posOf (l : List Nat) (x : Nat) : Nat :=
  match l with
  | [] => 0
  | y :: ys => if y = x then 0 else posOf ys x + 1

lemma posOf_lt_length {l : List Nat} {x : Nat} (h : x ∈ l) : posOf l x < l.length := by
  induction l with
  | nil => cases h
  | cons y ys ih =>
    by_cases hyx : y = x
    · simp [posOf, hyx]
    · rcases List.mem_cons.mp h with rfl | hmem
      · exact absurd rfl hyx
      · simp only [posOf, hyx, if_false, List.length_cons]
        exact Nat.succ_lt_succ (ih hmem)

lemma posOf_append_of_mem {l l2 : List Nat} {x : Nat} (h : x ∈ l) :
    posOf (l ++ l2) x = posOf l x := by
  induction l with
  | nil => cases h
  | cons y ys ih =>
    by_cases hyx : y = x
    · simp [posOf, hyx]
    · rcases List.mem_cons.mp h with rfl | hmem
      · exact absurd rfl hyx
      · simp [posOf, hyx, ih hmem]

lemma posOf_append_self_of_not_mem {l : List Nat} {x : Nat} (h : x ∉ l) :
    posOf (l ++ [x]) x = l.length := by
  induction l with
  | nil => simp [posOf]
  | cons y ys ih =>
    have hyx : y ≠ x := fun he => h (he ▸ List.mem_cons_self y ys)
    have hys : x ∉ ys := fun hm => h (List.mem_cons_of_mem y hm)
    simp [posOf, hyx, ih hys]

lemma getD_posOf {l : List Nat} {x : Nat} (h : x ∈ l) : l.getD (posOf l x) 0 = x := by
  induction l with
  | nil => cases h
  | cons y ys ih =>
    by_cases hyx : y = x
    · simp [posOf, hyx]
    · rcases List.mem_cons.mp h with rfl | hmem
      · exact absurd rfl hyx
      · simp only [posOf, if_neg hyx, List.getD_cons_succ]
        exact ih hmem

lemma getD_mem_of_lt {α : Type} (l : List α) (i : Nat) (d : α) (h : i < l.length) :
    l.getD i d ∈ l := by
  induction l generalizing i with
  | nil => simp at h
  | cons y ys ih =>
    match i with
    | 0 => simp
    | i + 1 =>
      have := ih i (Nat.lt_of_succ_lt_succ h)
      simp only [List.getD_cons_succ]
      exact List.mem_cons_of_mem y this

lemma getD_eq_get {α : Type} (l : List α) (i : Nat) (d : α) (h : i < l.length) :
    l.getD i d = l[i] := by
  simp [List.getD_eq_getElem?_getD, List.getElem?_eq_getElem h]

lemma posOf_getD_of_nodup {l : List Nat} (hnd : l.Nodup) {i : Nat} (hi : i < l.length) :
    posOf l (l.getD i 0) = i := by
  induction l generalizing i with
  | nil => simp at hi
  | cons y ys ih =>
    rcases List.nodup_cons.mp hnd with ⟨hy, hys⟩
    match i with
    | 0 => simp [posOf]
    | i + 1 =>
      have hi' : i < ys.length := Nat.lt_of_succ_lt_succ hi
      have hyne : y ≠ ys.getD i 0 := by
        intro he
        exact hy (he ▸ getD_mem_of_lt ys i 0 hi')
      simp only [List.getD_cons_succ, posOf, if_neg hyne]
      rw [ih hys hi']

lemma getD_map_snd (l : List Entry) (i : Nat) :
    (l.map Prod.snd).getD i 0 = (l.getD i (0, 0)).2 := by
  induction l generalizing i with
  | nil => simp
  | cons e es ih =>
    match i with
    | 0 => simp
    | i + 1 => simpa using ih i

/-- The queue list is sorted by priority (priority 1 before priority 2);
this is the sortedness the spec asks of `entries`. -/
def SortedEntries (l : List Entry) : Prop :=
  l.Pairwise (fun e1 e2 => e1.1 ≤ e2.1)

instance (l : List Entry) : Decidable (SortedEntries l) := by
  unfold SortedEntries
  exact List.instDecidablePairwise l

lemma sortedEntries_le {l : List Entry} (hs : SortedEntries l) {i j : Nat}
    (hij : i ≤ j) (hj : j < l.length) :
    (l.getD i (0, 0)).1 ≤ (l.getD j (0, 0)).1 := by
  rcases Nat.eq_or_lt_of_le hij with rfl | hlt
  · exact Nat.le_refl _
  · have hi : i < l.length := Nat.lt_trans hlt hj
    have := (List.pairwise_iff_getElem.mp hs) i j hi hj hlt
    rwa [getD_eq_get l i _ hi, getD_eq_get l j _ hj]

lemma mem_take_entries {a : List Entry} {k : Nat} {e : Entry} (h : e ∈ a.take k) :
    ∃ i, i < k ∧ i < a.length ∧ a.getD i (0, 0) = e := by
  rcases List.mem_iff_getElem.mp h with ⟨n, hn, hget⟩
  have hlen : n < k ∧ n < a.length := by
    have := hn
    simp only [List.length_take] at this
    omega
  refine ⟨n, hlen.1, hlen.2, ?_⟩
  rw [getD_eq_get a n _ hlen.2, ← hget, List.getElem_take]

lemma mem_drop_entries {a : List Entry} {k : Nat} {e : Entry} (h : e ∈ a.drop k) :
    ∃ i, k ≤ i ∧ i < a.length ∧ a.getD i (0, 0) = e := by
  rcases List.mem_iff_getElem.mp h with ⟨n, hn, hget⟩
  have hlen : k + n < a.length := by
    have := hn
    simp only [List.length_drop] at this
    omega
  refine ⟨k + n, Nat.le_add_right k n, hlen, ?_⟩
  rw [getD_eq_get a (k + n) _ hlen, ← hget, List.getElem_drop]

lemma bisectRightAux_spec (a : List Entry) (x : Entry) (hs : SortedEntries a) :
    ∀ (fuel lo hi : Nat), hi - lo ≤ fuel → lo ≤ hi → hi ≤ a.length →
    (∀ i, i < lo → (a.getD i (0, 0)).1 ≤ x.1) →
    (∀ i, hi ≤ i → i < a.length → x.1 < (a.getD i (0, 0)).1) →
    bisectRightAux a x fuel lo hi ≤ hi ∧
    (∀ i, i < bisectRightAux a x fuel lo hi → (a.getD i (0, 0)).1 ≤ x.1) ∧
    (∀ i, bisectRightAux a x fuel lo hi ≤ i → i < a.length →
      x.1 < (a.getD i (0, 0)).1) := by
  intro fuel
  induction fuel with
  | zero =>
    intro lo hi hfuel hlohi hhi hbelow habove
    have : lo = hi := by omega
    subst this
    exact ⟨Nat.le_refl _, hbelow, fun i hli hilen => habove i hli hilen⟩
  | succ fuel ih =>
    intro lo hi hfuel hlohi hhi hbelow habove
    by_cases hlt : lo < hi
    · have hmid_lt : (lo + hi) / 2 < hi := by omega
      have hmid_ge : lo ≤ (lo + hi) / 2 := by omega
      by_cases hcmp : x.1 < (a.getD ((lo + hi) / 2) (0, 0)).1
      · have hrec := ih lo ((lo + hi) / 2) (by omega) hmid_ge
          (Nat.le_trans (Nat.le_of_lt hmid_lt) hhi) hbelow
          (fun i hmi hilen =>
            Nat.lt_of_lt_of_le hcmp (sortedEntries_le hs hmi hilen))
        simp only [bisectRightAux, if_pos hlt, entryLt, decide_eq_true_eq, hcmp, if_pos]
        exact ⟨Nat.le_trans hrec.1 (Nat.le_of_lt hmid_lt), hrec.2.1, hrec.2.2⟩
      · have hmle : (a.getD ((lo + hi) / 2) (0, 0)).1 ≤ x.1 := Nat.le_of_not_lt hcmp
        have hmidlen : (lo + hi) / 2 < a.length := Nat.lt_of_lt_of_le hmid_lt hhi
        have hrec := ih ((lo + hi) / 2 + 1) hi (by omega) (by omega) hhi
          (fun i hi1 => by
            by_cases hilo : i < lo
            · exact hbelow i hilo
            · exact Nat.le_trans
                (sortedEntries_le hs (by omega) hmidlen) hmle)
          habove
        simp only [bisectRightAux, if_pos hlt, entryLt, decide_eq_true_eq, hcmp, if_false]
        exact hrec
    · have : lo = hi := by omega
      subst this
      simp only [bisectRightAux, if_neg hlt]
      exact ⟨Nat.le_refl _, hbelow, fun i hli hilen => habove i hli hilen⟩

lemma bisectRight_spec (a : List Entry) (x : Entry) (hs : SortedEntries a) :
    bisectRight a x ≤ a.length ∧
    (∀ i, i < bisectRight a x → (a.getD i (0, 0)).1 ≤ x.1) ∧
    (∀ i, bisectRight a x ≤ i → i < a.length → x.1 < (a.getD i (0, 0)).1) := by
  have := bisectRightAux_spec a x hs a.length 0 a.length (by omega) (Nat.zero_le _)
    (Nat.le_refl _) (fun i hi => by omega) (fun i hli hilen => by omega)
  exact this

lemma sorted_insert (a : List Entry) (x : Entry) (hs : SortedEntries a) :
    SortedEntries (a.take (bisectRight a x) ++ x :: a.drop (bisectRight a x)) := by
  obtain ⟨hk, hle, hgt⟩ := bisectRight_spec a x hs
  rw [SortedEntries, List.pairwise_append]
  refine ⟨List.Pairwise.sublist (List.take_sublist _ _) hs, ?_, ?_⟩
  · rw [List.pairwise_cons]
    refine ⟨?_, List.Pairwise.sublist (List.drop_sublist _ _) hs⟩
    intro b hb
    obtain ⟨i, hki, hilen, hgetd⟩ := mem_drop_entries hb
    exact Nat.le_of_lt (hgetd ▸ hgt i hki hilen)
  · intro e1 he1 e2 he2
    obtain ⟨i, hik, hilen, hgi⟩ := mem_take_entries he1
    have h1 : e1.1 ≤ x.1 := hgi ▸ hle i hik
    rcases List.mem_cons.mp he2 with rfl | hmem
    · exact h1
    · obtain ⟨j, hkj, hjlen, hgj⟩ := mem_drop_entries hmem
      exact Nat.le_trans h1 (Nat.le_of_lt (hgj ▸ hgt j hkj hjlen))

/-- FIFO within a priority class, stated against a trace `pr` of request
ids in admission order: among entries of equal priority, queue order agrees
with admission order. -/
def FifoOrdered (pr : List Nat) (l : List Entry) : Prop :=
  l.Pairwise (fun e1 e2 => e1.1 = e2.1 → posOf pr e1.2 < posOf pr e2.2)

lemma fifoOrdered_extend {pr : List Nat} {l : List Entry} {new : List Nat}
    (hf : FifoOrdered pr l) (hmem : ∀ e ∈ l, e.2 ∈ pr) :
    FifoOrdered (pr ++ new) l := by
  refine List.Pairwise.imp_of_mem ?_ hf
  intro e1 e2 h1 h2 h heq
  rw [posOf_append_of_mem (hmem e1 h1), posOf_append_of_mem (hmem e2 h2)]
  exact h heq

lemma fifo_insert (a : List Entry) (r : Request) (pr : List Nat)
    (hs : SortedEntries a) (hf : FifoOrdered pr a)
    (hmem : ∀ e ∈ a, e.2 ∈ pr) (hfresh : r.rid ∉ pr) :
    FifoOrdered (pr ++ [r.rid])
      (a.take (bisectRight a (r.priority, r.rid)) ++
        (r.priority, r.rid) :: a.drop (bisectRight a (r.priority, r.rid))) := by
  obtain ⟨hk, hle, hgt⟩ := bisectRight_spec a (r.priority, r.rid) hs
  have hext : FifoOrdered (pr ++ [r.rid]) a := fifoOrdered_extend hf hmem
  have hsplit : FifoOrdered (pr ++ [r.rid])
      (a.take (bisectRight a (r.priority, r.rid)) ++
        a.drop (bisectRight a (r.priority, r.rid))) := by
    rw [List.take_append_drop]
    exact hext
  have hcross := (List.pairwise_append.mp hsplit).2.2
  rw [FifoOrdered, List.pairwise_append]
  refine ⟨List.Pairwise.sublist (List.take_sublist _ _) hext, ?_, ?_⟩
  · rw [List.pairwise_cons]
    refine ⟨?_, List.Pairwise.sublist (List.drop_sublist _ _) hext⟩
    intro b hb heq
    obtain ⟨i, hki, hilen, hgetd⟩ := mem_drop_entries hb
    have hlt := hgt i hki hilen
    rw [hgetd] at hlt
    omega
  · intro e1 he1 e2 he2
    rcases List.mem_cons.mp he2 with rfl | hmem2
    · intro _heq
      have h1 : e1.2 ∈ pr := hmem e1 ((List.take_sublist _ _).subset he1)
      rw [posOf_append_of_mem h1, posOf_append_self_of_not_mem hfresh]
      exact posOf_lt_length h1
    · exact hcross e1 he1 e2 hmem2

lemma mem_insert_entries {a : List Entry} {k : Nat} {x e : Entry}
    (h : e ∈ a.take k ++ x :: a.drop k) : e ∈ a ∨ e = x := by
  rcases List.mem_append.mp h with h1 | h2
  · exact Or.inl ((List.take_sublist _ _).subset h1)
  · rcases List.mem_cons.mp h2 with rfl | h3
    · exact Or.inr rfl
    · exact Or.inl ((List.drop_sublist _ _).subset h3)

lemma length_insert_entries (a : List Entry) (k : Nat) (x : Entry) (hk : k ≤ a.length) :
    (a.take k ++ x :: a.drop k).length = a.length + 1 := by
  simp only [List.length_append, List.length_cons, List.length_take, List.length_drop]
  omega

lemma insert_drop_succ (a : List Entry) (x : Entry) (k : Nat) (hk : k ≤ a.length) :
    (a.take k ++ x :: a.drop k).drop (k + 1) = a.drop k := by
  have h1 : a.take k ++ x :: a.drop k = (a.take k ++ [x]) ++ a.drop k := by
    simp
  rw [h1, List.drop_left']
  simp only [List.length_append, List.length_take, List.length_cons, List.length_nil]
  omega

/-- The entry the queue stores for a request: the tuple
`(request.priority, request)`. -/
def toEntry (r : Request) : Entry := (r.priority, r.rid)

lemma accept_request_pos {s : QueueState} {r : Request}
    (h : s.entries.length < s.capacity) :
    accept_request s r =
      (bisectRight s.entries (r.priority, r.rid) + 1,
       { s with entries :=
           s.entries.take (bisectRight s.entries (r.priority, r.rid)) ++
             (r.priority, r.rid) ::
               s.entries.drop (bisectRight s.entries (r.priority, r.rid)) },
       (s.entries.take (bisectRight s.entries (r.priority, r.rid)) ++
           (r.priority, r.rid) ::
             s.entries.drop (bisectRight s.entries (r.priority, r.rid))).drop
         (bisectRight s.entries (r.priority, r.rid) + 1)) := by
  simp [accept_request, h]

lemma accept_request_full {s : QueueState} {r : Request}
    (h : ¬ s.entries.length < s.capacity) :
    accept_request s r = (s.capacity + 1, s, []) := by
  simp [accept_request, h]

lemma rid_mem_of_entry_mem {processed : List Request} {e : Entry}
    (h : e ∈ processed.map toEntry) : e.2 ∈ processed.map Request.rid := by
  rcases List.mem_map.mp h with ⟨r, hr, rfl⟩
  exact List.mem_map.mpr ⟨r, hr, rfl⟩

/-- The invariant maintained by `accept_request` over a trace of processed
requests: entries sorted by priority, length bounded by the capacity, every
entry the image of a processed request, and FIFO order within each priority
class relative to the trace. -/
structure QueueInv (s : QueueState) (processed : List Request) : Prop where
  sorted : SortedEntries s.entries
  cap : s.entries.length ≤ s.capacity
  mem : ∀ e ∈ s.entries, e ∈ processed.map toEntry
  fifo : FifoOrdered (processed.map Request.rid) s.entries

lemma accept_request_inv {s : QueueState} {processed : List Request} {r : Request}
    (hinv : QueueInv s processed) (hfresh : r.rid ∉ processed.map Request.rid) :
    QueueInv (accept_request s r).2.1 (processed ++ [r]) := by
  by_cases hlen : s.entries.length < s.capacity
  · have hmem2 : ∀ e ∈ s.entries, e.2 ∈ processed.map Request.rid :=
      fun e he => rid_mem_of_entry_mem (hinv.mem e he)
    have hk := (bisectRight_spec s.entries (r.priority, r.rid) hinv.sorted).1
    rw [accept_request_pos hlen]
    refine ⟨sorted_insert s.entries (r.priority, r.rid) hinv.sorted, ?_, ?_, ?_⟩
    · show (_ ++ _ :: _).length ≤ s.capacity
      rw [length_insert_entries _ _ _ hk]
      omega
    · intro e he
      rcases mem_insert_entries he with h1 | rfl
      · rw [List.map_append]
        exact List.mem_append_left _ (hinv.mem e h1)
      · rw [List.map_append]
        exact List.mem_append_right _ (List.mem_singleton.mpr rfl)
    · show FifoOrdered ((processed ++ [r]).map Request.rid) _
      rw [List.map_append]
      exact fifo_insert s.entries r (processed.map Request.rid) hinv.sorted
        hinv.fifo hmem2 hfresh
  · rw [accept_request_full hlen]
    refine ⟨hinv.sorted, hinv.cap, ?_, ?_⟩
    · intro e he
      rw [List.map_append]
      exact List.mem_append_left _ (hinv.mem e he)
    · show FifoOrdered ((processed ++ [r]).map Request.rid) s.entries
      rw [List.map_append]
      exact fifoOrdered_extend hinv.fifo
        (fun e he => rid_mem_of_entry_mem (hinv.mem e he))

lemma accepts_inv :
    ∀ (rs : List Request) (s : QueueState) (processed : List Request),
      QueueInv s processed → ((processed ++ rs).map Request.rid).Nodup →
      QueueInv (accepts s rs) (processed ++ rs) := by
  intro rs
  induction rs with
  | nil =>
    intro s processed hinv _
    simpa [accepts] using hinv
  | cons r rest ih =>
    intro s processed hinv hnd
    have hassoc : processed ++ r :: rest = (processed ++ [r]) ++ rest := by
      simp
    have hfresh : r.rid ∉ processed.map Request.rid := by
      rw [List.map_append] at hnd
      have hd := List.disjoint_of_nodup_append hnd
      intro hmem
      exact hd hmem (by simp)
    have hstep := accept_request_inv hinv hfresh
    have hnd' : (((processed ++ [r]) ++ rest).map Request.rid).Nodup := by
      rw [← hassoc]
      exact hnd
    have := ih ((accept_request s r).2.1) (processed ++ [r]) hstep hnd'
    rw [hassoc]
    simpa [accepts] using this

lemma initQueue_inv (capacity : Nat) (server : Option Nat) :
    QueueInv (initQueue capacity server) [] :=
  ⟨List.Pairwise.nil, by simp [initQueue], by simp [initQueue], List.Pairwise.nil⟩

lemma accept_request_capacity (s : QueueState) (r : Request) :
    (accept_request s r).2.1.capacity = s.capacity := by
  by_cases h : s.entries.length < s.capacity
  · rw [accept_request_pos h]
  · rw [accept_request_full h]

lemma accepts_capacity (rs : List Request) (s : QueueState) :
    (accepts s rs).capacity = s.capacity := by
  induction rs generalizing s with
  | nil => rfl
  | cons r rest ih =>
    show (accepts (accept_request s r).2.1 rest).capacity = s.capacity
    rw [ih, accept_request_capacity]

lemma getD_map_rid (rs : List Request) (i : Nat) :
    (rs.map Request.rid).getD i 0 = (rs.getD i default).rid := by
  induction rs generalizing i with
  | nil => simp [default]
  | cons r rest ih =>
    match i with
    | 0 => simp
    | i + 1 => simpa using ih i

lemma entry_at_posOf {E : List Entry} {rs : List Request}
    (hmem : ∀ e ∈ E, e ∈ rs.map toEntry)
    (hnd : (rs.map Request.rid).Nodup)
    {i : Nat} (hi : i < rs.length)
    (hmemM : (rs.getD i default).rid ∈ E.map Prod.snd) :
    posOf (E.map Prod.snd) (rs.getD i default).rid < E.length ∧
    E.getD (posOf (E.map Prod.snd) (rs.getD i default).rid) (0, 0) =
      ((rs.getD i default).priority, (rs.getD i default).rid) ∧
    posOf (rs.map Request.rid) (rs.getD i default).rid = i := by
  have hiR : i < (rs.map Request.rid).length := by
    rw [List.length_map]
    exact hi
  have hposR : posOf (rs.map Request.rid) (rs.getD i default).rid = i := by
    have := posOf_getD_of_nodup hnd hiR
    rwa [getD_map_rid] at this
  have hpM : posOf (E.map Prod.snd) (rs.getD i default).rid <
      (E.map Prod.snd).length := posOf_lt_length hmemM
  have hpE : posOf (E.map Prod.snd) (rs.getD i default).rid < E.length := by
    rwa [List.length_map] at hpM
  have hsnd : (E.getD (posOf (E.map Prod.snd) (rs.getD i default).rid) (0, 0)).2 =
      (rs.getD i default).rid := by
    rw [← getD_map_snd]
    exact getD_posOf hmemM
  refine ⟨hpE, ?_, hposR⟩
  have hEmem : E.getD (posOf (E.map Prod.snd) (rs.getD i default).rid) (0, 0) ∈ E :=
    getD_mem_of_lt E _ (0, 0) hpE
  rcases List.mem_map.mp (hmem _ hEmem) with ⟨rA, hrA, htoE⟩
  have hridA : rA.rid = (rs.getD i default).rid := by
    have := congrArg Prod.snd htoE
    rwa [hsnd] at this
  rcases List.mem_iff_getElem.mp hrA with ⟨t, ht, hget⟩
  have hgetD : rs.getD t default = rA := by
    rw [getD_eq_get rs t default ht]
    exact hget
  have htR : t < (rs.map Request.rid).length := by
    rw [List.length_map]
    exact ht
  have hposT : posOf (rs.map Request.rid) rA.rid = t := by
    have := posOf_getD_of_nodup hnd htR
    rwa [getD_map_rid, hgetD] at this
  have hti : t = i := by
    rw [hridA, hposR] at hposT
    omega
  subst hti
  rw [hgetD] at htoE ⊢
  exact htoE.symm

theorem fifo_position {E : List Entry} {rs : List Request}
    (hmem : ∀ e ∈ E, e ∈ rs.map toEntry)
    (hfifo : FifoOrdered (rs.map Request.rid) E)
    (hnd : (rs.map Request.rid).Nodup)
    {i j : Nat} (hij : i < j) (hj : j < rs.length)
    (hprio : (rs.getD i default).priority = (rs.getD j default).priority)
    (hmi : (rs.getD i default).rid ∈ E.map Prod.snd)
    (hmj : (rs.getD j default).rid ∈ E.map Prod.snd) :
    posOf (E.map Prod.snd) (rs.getD i default).rid <
      posOf (E.map Prod.snd) (rs.getD j default).rid := by
  have hi : i < rs.length := Nat.lt_trans hij hj
  obtain ⟨hpaE, hEa, hposA⟩ := entry_at_posOf hmem hnd hi hmi
  obtain ⟨hpbE, hEb, hposB⟩ := entry_at_posOf hmem hnd hj hmj
  have hne : (rs.getD i default).rid ≠ (rs.getD j default).rid := by
    intro he
    rw [he, hposB] at hposA
    omega
  rcases Nat.lt_trichotomy (posOf (E.map Prod.snd) (rs.getD i default).rid)
      (posOf (E.map Prod.snd) (rs.getD j default).rid) with hlt | heq | hgt
  · exact hlt
  · exfalso
    apply hne
    rw [heq] at hEa
    exact congrArg Prod.snd (hEa.symm.trans hEb)
  · exfalso
    have hpair := (List.pairwise_iff_getElem.mp hfifo) _ _ hpbE hpaE hgt
    rw [← getD_eq_get E _ (0, 0) hpbE, ← getD_eq_get E _ (0, 0) hpaE] at hpair
    rw [hEa, hEb] at hpair
    have hord : posOf (rs.map Request.rid) (rs.getD j default).rid <
        posOf (rs.map Request.rid) (rs.getD i default).rid := hpair hprio.symm
    rw [hposA, hposB] at hord
    omega

/-- C1: for every sequence of `accept` calls on a fresh `RequestQueue` with
capacity C (with pairwise distinct request objects), at every point the
entries list is sorted by priority ascending, `len(entries) ≤ C`, and for
two equal-priority requests admitted in order A then B that are both still
queued, A's position in the entries list is strictly less than B's. -/
theorem C1_accept_sorted_capacity_fifo (C : Nat) (rs : List Request)
    (hnd : (rs.map Request.rid).Nodup) :
    SortedEntries (accepts (initQueue C) rs).entries ∧
    (accepts (initQueue C) rs).entries.length ≤ C ∧
    (∀ i j, i < j → j < rs.length →
      (rs.getD i default).priority = (rs.getD j default).priority →
      (rs.getD i default).rid ∈ (accepts (initQueue C) rs).entries.map Prod.snd →
      (rs.getD j default).rid ∈ (accepts (initQueue C) rs).entries.map Prod.snd →
      posOf ((accepts (initQueue C) rs).entries.map Prod.snd)
          (rs.getD i default).rid <
        posOf ((accepts (initQueue C) rs).entries.map Prod.snd)
          (rs.getD j default).rid) := by
  have hinv := accepts_inv rs (initQueue C) [] (initQueue_inv C none)
    (by simpa using hnd)
  rw [List.nil_append] at hinv
  have hcap : (accepts (initQueue C) rs).capacity = C := by
    rw [accepts_capacity]
    rfl
  refine ⟨hinv.sorted, le_of_le_of_eq hinv.cap hcap, ?_⟩
  intro i j hij hj hprio hmi hmj
  exact fifo_position hinv.mem hinv.fifo hnd hij hj hprio hmi hmj

/-- Witness for C1 at a concrete input: two equal-priority requests admitted
in order on a capacity-2 queue occupy positions in admission order. -/
theorem C1_accept_sorted_capacity_fifo_witness :
    posOf ((accepts (initQueue 2) [⟨2, 1⟩, ⟨2, 2⟩]).entries.map Prod.snd)
        (([⟨2, 1⟩, ⟨2, 2⟩] : List Request).getD 0 default).rid <
      posOf ((accepts (initQueue 2) [⟨2, 1⟩, ⟨2, 2⟩]).entries.map Prod.snd)
        (([⟨2, 1⟩, ⟨2, 2⟩] : List Request).getD 1 default).rid :=
  (C1_accept_sorted_capacity_fifo 2 [⟨2, 1⟩, ⟨2, 2⟩] (by decide)).2.2 0 1
    (by decide) (by decide) (by decide) (by decide) (by decide)

/-- C2: `accept_request` on a full queue returns the sentinel
`capacity + 1`, leaves the whole queue state unchanged, sends no shift
notifications, and raises no error (it is a total function). -/
theorem C2_accept_full_sentinel (s : QueueState) (r : Request)
    (h : s.entries.length = s.capacity) :
    accept_request s r = (s.capacity + 1, s, []) :=
  accept_request_full (by omega)

/-- Witness for C2: a concrete full queue of capacity 1 refuses a request
with sentinel 2 and stays unchanged. -/
theorem C2_accept_full_sentinel_witness :
    accept_request
        { entries := [(2, 5)], canBypass := false, capacity := 1 } ⟨1, 9⟩ =
      (2, { entries := [(2, 5)], canBypass := false, capacity := 1 }, []) :=
  C2_accept_full_sentinel
    { entries := [(2, 5)], canBypass := false, capacity := 1 } ⟨1, 9⟩ (by decide)

/-- A queue one dispatch away from empty: capacity 1, one queued normal
request, canBypass already false, mutually paired with server 0. -/
def lastEntryQueue : QueueState :=
  { entries := [(2, 1)], canBypass := false, capacity := 1, pairedServer := some 0 }

/-- C3 counterexample: `send_request` on a queue holding one last entry
leaves the queue empty with `canBypass = false`, not true as the claim
states — the popped request's `move_to_server` clears the mutually paired
queue's flag, and the empty-queue branch that sets it true never runs. -/
theorem C3_counterexample :
    (sendRequest lastEntryQueue).state.entries = [] ∧
      (sendRequest lastEntryQueue).state.canBypass = false := by
  constructor <;> rfl

/-- C3 amended: after `send_request`, `canBypass` is true exactly when the
queue was already empty when the call was made; any call that actually
dispatches an entry — including one that empties the queue — leaves
`canBypass` false, because the dispatched request's `move_to_server` clears
the mutually paired queue's flag. -/
theorem C3_amended_bypass_iff_was_empty (s : QueueState) :
    (sendRequest s).state.canBypass = true ↔ s.entries = [] := by
  match hs : s.entries with
  | [] =>
    simp [sendRequest, hs]
  | e :: rest =>
    simp [sendRequest, hs, moveToServerOfPair]

lemma getD_append_length {α : Type} (l1 l2 : List α) (x d : α) :
    (l1 ++ x :: l2).getD l1.length d = x := by
  induction l1 with
  | nil => simp
  | cons y ys ih => simpa using ih

lemma insert_getD_self (a : List Entry) (x : Entry) (k : Nat) (hk : k ≤ a.length) :
    (a.take k ++ x :: a.drop k).getD k (0, 0) = x := by
  have hlen : (a.take k).length = k := by
    rw [List.length_take]
    omega
  calc (a.take k ++ x :: a.drop k).getD k (0, 0)
      = (a.take k ++ x :: a.drop k).getD (a.take k).length (0, 0) := by rw [hlen]
    _ = x := getD_append_length _ _ _ _

lemma bisectRight_eq_countP (a : List Entry) (x : Entry) (hs : SortedEntries a) :
    bisectRight a x = a.countP (fun e => decide (e.1 ≤ x.1)) := by
  obtain ⟨hk, hle, hgt⟩ := bisectRight_spec a x hs
  set k := bisectRight a x with hkdef
  have htake : (a.take k).countP (fun e => decide (e.1 ≤ x.1)) = k := by
    have hall : ∀ e ∈ a.take k, decide (e.1 ≤ x.1) = true := by
      intro e he
      obtain ⟨i, hik, hilen, hgi⟩ := mem_take_entries he
      simpa using hgi ▸ hle i hik
    rw [List.countP_eq_length.mpr hall, List.length_take]
    omega
  have hdrop : (a.drop k).countP (fun e => decide (e.1 ≤ x.1)) = 0 := by
    rw [List.countP_eq_zero]
    intro e he
    obtain ⟨i, hik, hilen, hgi⟩ := mem_drop_entries he
    have := hgi ▸ hgt i hik hilen
    simp only [decide_eq_true_eq]
    omega
  conv_rhs => rw [← List.take_append_drop k a]
  rw [List.countP_append, htake, hdrop]
  omega

/-- Queue states reached in the spec's Scenario 1: after admitting N1, and
after admitting H2 in front of it (capacity-2 queue). -/
def scen1AfterN1 : QueueState :=
  { entries := [(2, 1)], canBypass := true, capacity := 2 }

def scen1AfterH2 : QueueState :=
  { entries := [(1, 2), (2, 1)], canBypass := true, capacity := 2 }

/-- C7: a successful `accept` inserts the entry at its sorted position
(1-based position = number of entries with priority at most the new one,
plus one), keeps the list sorted, grows it by one, and notifies exactly the
entries originally behind the insertion point to shift back; and Scenario 1
runs as specified: on an empty capacity-2 queue, accept(Normal#1) returns 1
giving [N1], accept(High#2) returns 1 giving [H2, N1] with N1 shifted back,
and accept(Normal#3) returns 3 leaving entries unchanged. -/
theorem C7_accept_success_insert (s : QueueState) (r : Request)
    (hsort : SortedEntries s.entries) (hroom : s.entries.length < s.capacity) :
    ((accept_request s r).1 =
        s.entries.countP (fun e => decide (e.1 ≤ r.priority)) + 1 ∧
      (accept_request s r).2.1.entries.getD ((accept_request s r).1 - 1) (0, 0) =
        (r.priority, r.rid) ∧
      SortedEntries (accept_request s r).2.1.entries ∧
      (accept_request s r).2.1.entries.length = s.entries.length + 1 ∧
      (accept_request s r).2.2 = s.entries.drop ((accept_request s r).1 - 1)) ∧
    (accept_request (initQueue 2) ⟨2, 1⟩ = (1, scen1AfterN1, []) ∧
      accept_request scen1AfterN1 ⟨1, 2⟩ = (1, scen1AfterH2, [(2, 1)]) ∧
      accept_request scen1AfterH2 ⟨2, 3⟩ = (3, scen1AfterH2, [])) := by
  have hk := (bisectRight_spec s.entries (r.priority, r.rid) hsort).1
  refine ⟨⟨?_, ?_, ?_, ?_, ?_⟩, by decide, by decide, by decide⟩
  · rw [accept_request_pos hroom, bisectRight_eq_countP s.entries _ hsort]
  · rw [accept_request_pos hroom]
    simp only [Nat.add_sub_cancel]
    exact insert_getD_self s.entries _ _ hk
  · rw [accept_request_pos hroom]
    exact sorted_insert s.entries _ hsort
  · rw [accept_request_pos hroom]
    exact length_insert_entries s.entries _ _ hk
  · rw [accept_request_pos hroom]
    simp only [Nat.add_sub_cancel]
    exact insert_drop_succ s.entries _ _ hk

/-- Witness for C7: the general part applied to the concrete Scenario-1
step that inserts H2 in front of N1. -/
theorem C7_accept_success_insert_witness :
    (accept_request scen1AfterN1 ⟨1, 2⟩).1 =
        scen1AfterN1.entries.countP (fun e => decide (e.1 ≤ (1 : Nat))) + 1 :=
  ((C7_accept_success_insert scen1AfterN1 ⟨1, 2⟩ (by decide)
    (by decide)).1).1

/-- The Scenario-2 queue: entries [H2, N1] on a capacity-2 queue paired
with server 0, canBypass false; and its state after the dispatch. -/
def scen2Queue : QueueState :=
  { entries := [(1, 2), (2, 1)], canBypass := false, capacity := 2, pairedServer := some 0 }

def scen2After : QueueState :=
  { entries := [(2, 1)], canBypass := false, capacity := 2, pairedServer := some 0 }

/-- C8: `send_request` on a non-empty queue pops exactly the front entry —
which has the minimal priority value, and among entries of its priority the
earliest admission position — hands it to the paired server as its
traveling-to-server target, and notifies exactly the remaining entries to
shift forward; Scenario 2: from [H2, N1], H2 is dispatched to the paired
server, entries become [N1], and N1 is notified to shift forward. -/
theorem C8_dispatch_front (s : QueueState) (e : Entry) (rest : List Entry)
    (hent : s.entries = e :: rest) :
    (sendRequest s =
        ⟨{ s with entries := rest, canBypass := false }, some e, rest⟩ ∧
      (SortedEntries s.entries → ∀ e2 ∈ s.entries, e.1 ≤ e2.1) ∧
      (∀ pr, FifoOrdered pr s.entries →
        ∀ e2 ∈ s.entries, e2.1 = e.1 → posOf pr e.2 ≤ posOf pr e2.2)) ∧
    sendRequest scen2Queue = ⟨scen2After, some (1, 2), [(2, 1)]⟩ := by
  refine ⟨⟨?_, ?_, ?_⟩, by decide⟩
  · simp [sendRequest, hent, moveToServerOfPair]
  · intro hsort e2 he2
    rw [hent] at hsort he2
    rcases List.pairwise_cons.mp hsort with ⟨hhead, _⟩
    rcases List.mem_cons.mp he2 with rfl | hmem
    · exact Nat.le_refl _
    · exact hhead e2 hmem
  · intro pr hfifo e2 he2 heq
    rw [hent] at hfifo he2
    rcases List.pairwise_cons.mp hfifo with ⟨hhead, _⟩
    rcases List.mem_cons.mp he2 with rfl | hmem
    · exact Nat.le_refl _
    · exact Nat.le_of_lt (hhead e2 hmem heq.symm)

/-- Witness for C8: the dispatch equation at the concrete Scenario-2
queue. -/
theorem C8_dispatch_front_witness :
    sendRequest scen2Queue =
      ⟨{ scen2Queue with entries := [(2, 1)], canBypass := false },
        some (1, 2), [(2, 1)]⟩ :=
  ((C8_dispatch_front scen2Queue (1, 2) [(2, 1)] rfl).1).1

/-- `Request.move_to_queue`: the target queue is fixed and the admission
decision is taken immediately by calling `accept_request`; the returned
position only selects the travel end coordinates.  Result: new queue state
and the position `accept` returned. -/
def moveToQueue (q : QueueState) (r : Request) : QueueState × Nat :=
  ((accept_request q r).2.1, (accept_request q r).1)

/-- `Request._check_on_reach_queue` at the reached-queue-boundary event:
the membership test `any(req is self for _, req in queue.queue)`; when it
is false the request drops. -/
def checkOnReachQueue (q : QueueState) (rid : Nat) : Bool :=
  q.entries.any (fun e => e.2 == rid)

/-- Queue-mutating operations that can run between routing time and the
boundary event: further accepts and dispatches. -/
inductive QOp where
  | acc (r : Request)
  | send

def applyQOp (s : QueueState) : QOp → QueueState
  | .acc r => (accept_request s r).2.1
  | .send => (sendRequest s).state

def applyQOps (s : QueueState) (ops : List QOp) : QueueState :=
  ops.foldl applyQOp s

lemma rid_not_mem_accept {s : QueueState} {rid : Nat} {r : Request}
    (h : ∀ e ∈ s.entries, e.2 ≠ rid) (hne : r.rid ≠ rid) :
    ∀ e ∈ (accept_request s r).2.1.entries, e.2 ≠ rid := by
  by_cases hlen : s.entries.length < s.capacity
  · rw [accept_request_pos hlen]
    intro e he
    rcases mem_insert_entries he with h1 | rfl
    · exact h e h1
    · exact hne
  · rw [accept_request_full hlen]
    exact h

lemma rid_not_mem_send {s : QueueState} {rid : Nat}
    (h : ∀ e ∈ s.entries, e.2 ≠ rid) :
    ∀ e ∈ (sendRequest s).state.entries, e.2 ≠ rid := by
  match hs : s.entries with
  | [] =>
    simp only [sendRequest, hs]
    intro e he
    cases he
  | e0 :: rest =>
    simp only [sendRequest, hs, moveToServerOfPair]
    intro e he
    exact h e (hs ▸ List.mem_cons_of_mem e0 he)

lemma rid_not_mem_applyQOps {rid : Nat} (ops : List QOp)
    (hops : ∀ op ∈ ops, ∀ r2, op = QOp.acc r2 → r2.rid ≠ rid) :
    ∀ s : QueueState, (∀ e ∈ s.entries, e.2 ≠ rid) →
      ∀ e ∈ (applyQOps s ops).entries, e.2 ≠ rid := by
  induction ops with
  | nil => exact fun s h => h
  | cons op rest ih =>
    intro s h
    have hrest : ∀ op2 ∈ rest, ∀ r2, op2 = QOp.acc r2 → r2.rid ≠ rid :=
      fun op2 hmem => hops op2 (List.mem_cons_of_mem op hmem)
    match op with
    | QOp.acc r2 =>
      have hne : r2.rid ≠ rid := hops (QOp.acc r2) (List.mem_cons_self _ _) r2 rfl
      exact ih hrest _ (rid_not_mem_accept h hne)
    | QOp.send =>
      exact ih hrest _ (rid_not_mem_send h)

/-- C5: queue membership is decided exactly once, at routing time —
`move_to_queue` invokes `accept` immediately; when that decision was
refusal (queue full at routing time, sentinel `capacity + 1`, state
unchanged), the reached-queue-boundary membership check fails and the
request drops, no matter what sequence of further accepts (of other
requests) and dispatches ran in between — even if the queue has since
fallen below capacity, admission is not re-evaluated at arrival. -/
theorem C5_admission_decided_at_routing (q0 : QueueState) (r : Request)
    (ops : List QOp)
    (hfull : q0.entries.length = q0.capacity)
    (hfresh : ∀ e ∈ q0.entries, e.2 ≠ r.rid)
    (hops : ∀ op ∈ ops, ∀ r2, op = QOp.acc r2 → r2.rid ≠ r.rid) :
    (moveToQueue q0 r).2 = q0.capacity + 1 ∧
    (moveToQueue q0 r).1 = q0 ∧
    checkOnReachQueue (applyQOps (moveToQueue q0 r).1 ops) r.rid = false := by
  have hnotlt : ¬ q0.entries.length < q0.capacity := by omega
  have heq := accept_request_full (r := r) hnotlt
  refine ⟨?_, ?_, ?_⟩
  · show (accept_request q0 r).1 = q0.capacity + 1
    rw [heq]
  · show (accept_request q0 r).2.1 = q0
    rw [heq]
  · have hstate : (moveToQueue q0 r).1 = q0 := by
      show (accept_request q0 r).2.1 = q0
      rw [heq]
    rw [hstate]
    have hnone := rid_not_mem_applyQOps ops hops q0 hfresh
    rw [checkOnReachQueue, List.any_eq_false]
    intro e he
    simpa using hnone e he

/-- A full capacity-1 queue used to witness C5: the refused request is
dropped at the boundary even though a dispatch has emptied the queue in
the meantime. -/
def c5FullQueue : QueueState :=
  { entries := [(2, 1)], canBypass := false, capacity := 1, pairedServer := some 0 }

/-- Witness for C5: routing request id 9 at the full queue refuses it;
after one dispatch empties the queue, the boundary check still drops it. -/
theorem C5_admission_decided_at_routing_witness :
    checkOnReachQueue (applyQOps (moveToQueue c5FullQueue ⟨2, 9⟩).1 [QOp.send]) 9 =
      false :=
  (C5_admission_decided_at_routing c5FullQueue ⟨2, 9⟩ [QOp.send] (by decide)
    (by decide)
    (by
      intro op hop r2 hacc
      rw [List.mem_singleton] at hop
      rw [hop] at hacc
      cases hacc)).2.2

/-- `Server.accept_request(request)`: the body is
`if request: self.current_request = request` — a Request object is always
truthy, `None` is falsy, so the assignment happens exactly when the
argument is not `None`. -/
def serverAcceptRequest (cur : Option Nat) (req : Option Nat) : Option Nat :=
  match req with
  | some r => some r
  | none => cur

/-- What happens to the arriving request at the reached-server-boundary
event. -/
inductive ArrivalOutcome where
  | assigned
  | droppedAtServer
  | stayed
deriving DecidableEq, Repr

/-- `Request._check_on_reach_server` at the moment the boundary is
crossed: if `current_request is None`, the server accepts this request;
elif it is occupied by a different request, this request drops; occupied by
this very request leaves everything unchanged. -/
def checkOnReachServer (cur : Option Nat) (rid : Nat) : Option Nat × ArrivalOutcome :=
  match cur with
  | none => (serverAcceptRequest none (some rid), ArrivalOutcome.assigned)
  | some r =>
    if r ≠ rid then (some r, ArrivalOutcome.droppedAtServer)
    else (some r, ArrivalOutcome.stayed)

/-- C6: at the reached-server-boundary event, an idle server accepts the
arriving request (currentRequest becomes that request); a server occupied
by a different request drops the arrival; and currentRequest changes
through this handler only if the server was idle immediately prior. -/
theorem C6_server_boundary_protocol (cur : Option Nat) (rid : Nat) :
    (cur = none →
      checkOnReachServer cur rid = (some rid, ArrivalOutcome.assigned)) ∧
    (∀ r, cur = some r → r ≠ rid →
      checkOnReachServer cur rid = (some r, ArrivalOutcome.droppedAtServer)) ∧
    ((checkOnReachServer cur rid).1 ≠ cur → cur = none) := by
  refine ⟨?_, ?_, ?_⟩
  · rintro rfl
    rfl
  · rintro r rfl hne
    simp [checkOnReachServer, hne]
  · intro hch
    match cur with
    | none => rfl
    | some r =>
      exfalso
      apply hch
      by_cases h : r = rid <;> simp [checkOnReachServer, h]

/-- Witness for C6: an idle server accepts arriving request 5. -/
theorem C6_server_boundary_protocol_witness :
    checkOnReachServer none 5 = (some 5, ArrivalOutcome.assigned) :=
  (C6_server_boundary_protocol none 5).1 rfl

/-- C9 counterexample: `Server.accept_request(None)` on a server occupied
by request 0 leaves `current_request` at request 0 — the `if request:`
guard means the call does not set `currentRequest` to the given argument
for every argument value, contrary to the claim's unconditional
assignment. -/
theorem C9_counterexample :
    serverAcceptRequest (some 0) none ≠ none := by
  decide

/-- C9 amended: for every actual Request argument (always truthy) the call
assigns `currentRequest = request`, including when the server is already
occupied — it enforces no exclusivity check; a falsy argument (`None`) is
skipped by the `if request:` guard and leaves `currentRequest` unchanged. -/
theorem C9_amended_accept_assigns (cur : Option Nat) (r : Nat) :
    serverAcceptRequest cur (some r) = some r ∧
      serverAcceptRequest cur none = cur :=
  ⟨rfl, rfl⟩

/-- State of a `Server` object in the topology: its current request and
its `paired_queue` reference (an index into the topology's queue list, or
none for a server constructed without a queue). -/
structure WServer where
  currentRequest : Option Nat := none
  pairedQueue : Option Nat := none
deriving DecidableEq, Repr, Inhabited

/-- The scene as the Client sees it: the queues and servers that
`scene.items()` yields, in scene order. -/
structure World where
  queues : List QueueState
  servers : List WServer
deriving DecidableEq, Repr

/-- The generator expression `next((q for q in queues if q.can_bypass),
None)`: index of the first bypassable queue in scene order. -/
def firstBypass : List QueueState → Option Nat
  | [] => none
  | q :: rest =>
    if q.canBypass then some 0 else (firstBypass rest).map (· + 1)

/-- The scanning loop of `min(queues, key=lambda q: len(q.queue))`: keep
the current best index and length, replacing them only on a strictly
smaller length, so the first minimum wins. -/
def leastBusyAux : List QueueState → Nat → Nat → Nat → Nat
  | [], _, bestIdx, _ => bestIdx
  | q :: rest, i, bestIdx, bestLen =>
    if q.entries.length < bestLen then
      leastBusyAux rest (i + 1) i q.entries.length
    else
      leastBusyAux rest (i + 1) bestIdx bestLen

/-- Index of the first queue with the fewest entries
(`Client._find_target_queue`'s least-busy choice over a nonempty list). -/
def leastBusyIdx : List QueueState → Nat
  | [] => 0
  | q :: rest => leastBusyAux rest 1 0 q.entries.length

/-- `Client._find_target_queue`: `None` when there are no queues, else
the first bypassable queue, else the least busy one. -/
def findTargetQueue (qs : List QueueState) : Option Nat :=
  if qs = [] then none
  else
    match firstBypass qs with
    | some i => some i
    | none => some (leastBusyIdx qs)

/-- `Client._find_server`: the first server in the scene, if any. -/
def findServerIdx (ss : List WServer) : Option Nat :=
  if ss = [] then none else some 0

/-- How `Client._route_request` disposed of the request. -/
inductive RouteOutcome where
  | attrError
  | bypass (qIdx sIdx : Nat)
  | queuedAt (qIdx pos : Nat)
  | direct (sIdx : Nat)
  | unrouted
deriving DecidableEq, Repr

/-- The `can_bypass = False` assignment a bypassing request performs on
the queue object it found through `server.paired_queue`. -/
def clearBypass (q : QueueState) : QueueState :=
  { q with canBypass := false }

/-- `Request.move_to_server(server)` at topology level: the line
`server.paired_queue.can_bypass = False` runs unconditionally, so the call
raises `AttributeError` when `server` is `None` or when the server has no
paired queue; otherwise it clears the paired queue's bypass flag. -/
def moveToServerW (w : World) (server : Option Nat) : Except Unit World :=
  match server with
  | none => Except.error ()
  | some sIdx =>
    match (w.servers.getD sIdx default).pairedQueue with
    | none => Except.error ()
    | some qIdx =>
      Except.ok
        { w with queues :=
            w.queues.set qIdx (clearBypass (w.queues.getD qIdx default)) }

/-- `Client._route_request`: no queues → direct to the first server if
any, else unrouted; else bypass through the first bypassable queue's
paired server, else queue at the least busy queue (which immediately runs
`accept_request`). -/
def routeRequest (w : World) (r : Request) : RouteOutcome × World :=
  match findTargetQueue w.queues with
  | none =>
    match findServerIdx w.servers with
    | some sIdx =>
      match moveToServerW w (some sIdx) with
      | Except.ok w2 => (RouteOutcome.direct sIdx, w2)
      | Except.error _ => (RouteOutcome.attrError, w)
    | none => (RouteOutcome.unrouted, w)
  | some qIdx =>
    let q := w.queues.getD qIdx default
    if q.canBypass then
      match moveToServerW w q.pairedServer with
      | Except.ok w2 => (RouteOutcome.bypass qIdx (q.pairedServer.getD 0), w2)
      | Except.error _ => (RouteOutcome.attrError, w)
    else
      (RouteOutcome.queuedAt qIdx (accept_request q r).1,
        { w with queues := w.queues.set qIdx (accept_request q r).2.1 })

lemma firstBypass_none_iff {qs : List QueueState} :
    firstBypass qs = none ↔ ∀ q ∈ qs, q.canBypass = false := by
  induction qs with
  | nil => simp [firstBypass]
  | cons q rest ih =>
    by_cases hq : q.canBypass = true
    · simp [firstBypass, hq]
    · simp only [Bool.not_eq_true] at hq
      simp [firstBypass, hq, ih]

lemma firstBypass_some {qs : List QueueState} {i : Nat}
    (h : firstBypass qs = some i) :
    i < qs.length ∧ (qs.getD i default).canBypass = true := by
  induction qs generalizing i with
  | nil => cases h
  | cons q rest ih =>
    by_cases hq : q.canBypass = true
    · simp only [firstBypass, if_pos hq, Option.some.injEq] at h
      subst h
      exact ⟨by simp, by simpa using hq⟩
    · simp only [firstBypass, if_neg hq] at h
      match hrest : firstBypass rest with
      | none =>
        rw [hrest] at h
        cases h
      | some j =>
        rw [hrest] at h
        simp only [Option.map_some', Option.some.injEq] at h
        subst h
        obtain ⟨hlt, hbyp⟩ := ih hrest
        constructor
        · simpa using Nat.succ_lt_succ hlt
        · simpa using hbyp

lemma leastBusyAux_spec :
    ∀ (qs : List QueueState) (i bestIdx bestLen : Nat),
      (leastBusyAux qs i bestIdx bestLen = bestIdx ∧
        ∀ t, t < qs.length → bestLen ≤ (qs.getD t default).entries.length) ∨
      (∃ t, t < qs.length ∧ leastBusyAux qs i bestIdx bestLen = i + t ∧
        (qs.getD t default).entries.length < bestLen ∧
        ∀ u, u < qs.length →
          (qs.getD t default).entries.length ≤
            (qs.getD u default).entries.length) := by
  intro qs
  induction qs with
  | nil =>
    intro i bestIdx bestLen
    left
    exact ⟨rfl, fun t ht => absurd ht (by simp)⟩
  | cons q rest ih =>
    intro i bestIdx bestLen
    by_cases hlt : q.entries.length < bestLen
    · rcases ih (i + 1) i q.entries.length with ⟨heq, hmin⟩ |
        ⟨t, ht, heq, hlt2, hmin⟩
      · right
        refine ⟨0, by simp, ?_, by simpa using hlt, ?_⟩
        · simp only [leastBusyAux, if_pos hlt]
          rw [heq]
          omega
        · intro u hu
          match u with
          | 0 => simp
          | v + 1 =>
            have := hmin v (by simpa using hu)
            simpa using this
      · right
        refine ⟨t + 1, by simpa using ht, ?_, ?_, ?_⟩
        · simp only [leastBusyAux, if_pos hlt]
          rw [heq]
          omega
        · simp only [List.getD_cons_succ]
          omega
        · intro u hu
          match u with
          | 0 =>
            simp only [List.getD_cons_succ, List.getD_cons_zero]
            omega
          | v + 1 =>
            have := hmin v (by simpa using hu)
            simp only [List.getD_cons_succ]
            exact this
    · rcases ih (i + 1) bestIdx bestLen with ⟨heq, hmin⟩ |
        ⟨t, ht, heq, hlt2, hmin⟩
      · left
        refine ⟨?_, ?_⟩
        · simp only [leastBusyAux, if_neg hlt]
          exact heq
        · intro u hu
          match u with
          | 0 =>
            simp only [List.getD_cons_zero]
            omega
          | v + 1 =>
            have := hmin v (by simpa using hu)
            simpa using this
      · right
        refine ⟨t + 1, by simpa using ht, ?_, by simpa using hlt2, ?_⟩
        · simp only [leastBusyAux, if_neg hlt]
          rw [heq]
          omega
        · intro u hu
          match u with
          | 0 =>
            simp only [List.getD_cons_succ, List.getD_cons_zero]
            omega
          | v + 1 =>
            have := hmin v (by simpa using hu)
            simpa using this

lemma leastBusyIdx_min (qs : List QueueState) (hne : qs ≠ []) :
    leastBusyIdx qs < qs.length ∧
    ∀ u, u < qs.length →
      (qs.getD (leastBusyIdx qs) default).entries.length ≤
        (qs.getD u default).entries.length := by
  match qs with
  | [] => exact absurd rfl hne
  | q :: rest =>
    rcases leastBusyAux_spec rest 1 0 q.entries.length with ⟨heq, hmin⟩ |
      ⟨t, ht, heq, hlt2, hmin⟩
    · constructor
      · show leastBusyAux rest 1 0 q.entries.length < (q :: rest).length
        rw [heq]
        simp
      · intro u hu
        show ((q :: rest).getD (leastBusyAux rest 1 0 q.entries.length)
            default).entries.length ≤ _
        rw [heq]
        simp only [List.getD_cons_zero]
        match u with
        | 0 => simp
        | v + 1 =>
          have := hmin v (by simpa using hu)
          simpa using this
    · constructor
      · show leastBusyAux rest 1 0 q.entries.length < (q :: rest).length
        rw [heq]
        simp only [List.length_cons]
        omega
      · intro u hu
        show ((q :: rest).getD (leastBusyAux rest 1 0 q.entries.length)
            default).entries.length ≤ _
        rw [heq]
        have hrw : (q :: rest).getD (1 + t) default = rest.getD t default := by
          have h1t : 1 + t = t + 1 := by omega
          rw [h1t, List.getD_cons_succ]
        rw [hrw]
        match u with
        | 0 =>
          simp only [List.getD_cons_zero]
          omega
        | v + 1 =>
          have := hmin v (by simpa using hu)
          simpa using this

/-- The pair (outcome, world) produced by a bypass route through queue i
to server s: that queue's bypass flag is cleared, nothing else changes. -/
def routeBypassResult (w : World) (i s : Nat) : RouteOutcome × World :=
  (RouteOutcome.bypass i s,
    { w with queues := w.queues.set i (clearBypass (w.queues.getD i default)) })

/-- The pair (outcome, world) produced by routing to queue j: `accept`
runs on that queue immediately and its result replaces it. -/
def routeQueuedResult (w : World) (j : Nat) (r : Request) : RouteOutcome × World :=
  (RouteOutcome.queuedAt j (accept_request (w.queues.getD j default) r).1,
    { w with queues := w.queues.set j (accept_request (w.queues.getD j default) r).2.1 })

lemma moveToServerW_eq_error {w : World} {sIdx : Nat}
    (hpq : (w.servers.getD sIdx default).pairedQueue = none) :
    moveToServerW w (some sIdx) = Except.error () := by
  simp only [moveToServerW, hpq]

lemma moveToServerW_eq_ok {w : World} {sIdx qIdx : Nat}
    (hpq : (w.servers.getD sIdx default).pairedQueue = some qIdx) :
    moveToServerW w (some sIdx) =
      Except.ok
        { w with queues := w.queues.set qIdx (clearBypass (w.queues.getD qIdx default)) } := by
  simp only [moveToServerW, hpq]

/-- C4: routing with at least one queue in the topology.  If some queue
has `canBypass = true`, the request is routed directly to the first such
queue's paired server and — through the mutual pairing — that queue's
`canBypass` is cleared as a side effect; otherwise the request goes to the
queue with the fewest entries, on which `accept_request` runs immediately.
Bypass always outranks least-busy. -/
theorem C4_routing_bypass_outranks_least_busy (w : World) (r : Request)
    (hne : w.queues ≠ [])
    (hpair : ∀ i, i < w.queues.length →
      ∃ s, (w.queues.getD i default).pairedServer = some s ∧
        (w.servers.getD s default).pairedQueue = some i) :
    ((∃ q ∈ w.queues, q.canBypass = true) →
      ∃ i s, firstBypass w.queues = some i ∧
        (w.queues.getD i default).canBypass = true ∧
        (w.queues.getD i default).pairedServer = some s ∧
        routeRequest w r = routeBypassResult w i s) ∧
    ((∀ q ∈ w.queues, q.canBypass = false) →
      routeRequest w r = routeQueuedResult w (leastBusyIdx w.queues) r ∧
      (∀ u, u < w.queues.length →
        (w.queues.getD (leastBusyIdx w.queues) default).entries.length ≤
          (w.queues.getD u default).entries.length)) := by
  constructor
  · intro hex
    match hfb : firstBypass w.queues with
    | none =>
      exfalso
      obtain ⟨q, hqmem, hqb⟩ := hex
      have := firstBypass_none_iff.mp hfb q hqmem
      rw [hqb] at this
      cases this
    | some i =>
      obtain ⟨hilt, hbyp⟩ := firstBypass_some hfb
      obtain ⟨s, hps, hsq⟩ := hpair i hilt
      refine ⟨i, s, rfl, hbyp, hps, ?_⟩
      have hok := moveToServerW_eq_ok (w := w) hsq
      simp only [routeRequest, findTargetQueue, if_neg hne, hfb, hbyp, if_true,
        hps, hok, routeBypassResult]
      rfl
  · intro hall
    have hfb : firstBypass w.queues = none := firstBypass_none_iff.mpr hall
    obtain ⟨hjlt, hmin⟩ := leastBusyIdx_min w.queues hne
    have hbypj : (w.queues.getD (leastBusyIdx w.queues) default).canBypass = false :=
      hall _ (getD_mem_of_lt w.queues _ default hjlt)
    refine ⟨?_, hmin⟩
    have hnb : ¬ (w.queues.getD (leastBusyIdx w.queues) default).canBypass = true := by
      rw [hbypj]
      simp
    simp only [routeRequest, findTargetQueue, if_neg hne, hfb, if_neg hnb,
      routeQueuedResult]

/-- Scenario-4 topology used to witness C4: Q1 empty and bypassable,
paired with server 0; Q2 non-bypassable with one entry, paired with
server 1; each server paired back to its queue. -/
def c4Q1 : QueueState :=
  { entries := [], canBypass := true, capacity := 5, pairedServer := some 0 }

def c4Q2 : QueueState :=
  { entries := [(2, 7)], canBypass := false, capacity := 5, pairedServer := some 1 }

def c4World : World :=
  ⟨[c4Q1, c4Q2], [⟨none, some 0⟩, ⟨none, some 1⟩]⟩

/-- Witness for C4: in the Scenario-4 topology the request bypasses to
Q1's paired server rather than queueing at the low-occupancy Q2. -/
theorem C4_routing_bypass_outranks_least_busy_witness :
    ∃ i s, firstBypass c4World.queues = some i ∧
      (c4World.queues.getD i default).canBypass = true ∧
      (c4World.queues.getD i default).pairedServer = some s ∧
      routeRequest c4World ⟨2, 5⟩ = routeBypassResult c4World i s :=
  (C4_routing_bypass_outranks_least_busy c4World ⟨2, 5⟩ (by decide)
    (by
      intro i hi
      match i with
      | 0 => exact ⟨0, rfl, rfl⟩
      | 1 => exact ⟨1, rfl, rfl⟩
      | n + 2 =>
        rw [show c4World.queues.length = 2 from rfl] at hi
        omega)).1
    (by decide)

/-- C10 (implicit): `move_to_server` dereferences `server.paired_queue`
unconditionally, so routing a request directly to a server whose
`paired_queue` is `None` — exactly what `_route_request` does when the
scene has a server but no queues — raises `AttributeError`; and
`move_to_server` on an existing server succeeds exactly when that server
has a paired queue. -/
theorem C10_direct_route_attribute_error :
    (∀ (w : World) (r : Request), w.queues = [] → w.servers ≠ [] →
      (w.servers.getD 0 default).pairedQueue = none →
      routeRequest w r = (RouteOutcome.attrError, w)) ∧
    (∀ (w : World) (sIdx : Nat),
      (∃ w2, moveToServerW w (some sIdx) = Except.ok w2) ↔
        (w.servers.getD sIdx default).pairedQueue ≠ none) := by
  constructor
  · intro w r hq hs hpq
    simp only [routeRequest, findTargetQueue, if_pos hq, findServerIdx,
      if_neg hs, moveToServerW, hpq]
  · intro w sIdx
    match hpq : (w.servers.getD sIdx default).pairedQueue with
    | none =>
      constructor
      · rintro ⟨w2, hw2⟩
        rw [moveToServerW_eq_error hpq] at hw2
        cases hw2
      · intro hcon
        exact absurd rfl hcon
    | some qIdx =>
      constructor
      · intro _
        simp [hpq]
      · intro _
        exact ⟨_, moveToServerW_eq_ok hpq⟩

/-- A scene holding one standalone server (no paired queue) and no
queues, as the tests build with Server(800, 100). -/
def c10World : World :=
  ⟨[], [⟨none, none⟩]⟩

/-- Witness for C10: routing in the standalone-server scene hits the
AttributeError. -/
theorem C10_direct_route_attribute_error_witness :
    routeRequest c10World ⟨2, 1⟩ = (RouteOutcome.attrError, c10World) :=
  C10_direct_route_attribute_error.1 c10World ⟨2, 1⟩ rfl (by decide) rfl

end QueueSim
